import Mathlib

/-!
Shallow embedding of the Q1.15 radix-2 DIT FFT golden model
(`scripts/fft_compute.py`, `scripts/twiddle_gen.py`, `scripts/fft_check.py`).

Modelling conventions:
* Python/NumPy 64-bit floats are modelled by `ℚ` where every value handled is an
  exact dyadic rational (the codec path), and by `ℝ` where trigonometric
  functions enter (twiddle generation) and for the comparator's error metrics.
* Python's arbitrary-precision `int` is `ℤ`; buffer indices are `ℕ`.
* Raising an exception is modelled by an `Option` result being `none`.
* Python `round` and `np.round` round half to even; `x >> n` on a Python int is
  an arithmetic shift, i.e. floor division by `2 ^ n`; `x & 0xFFFF` on a Python
  int (two's complement semantics) is reduction mod `2 ^ 16`.
-/

/-- Q1.15 fractional bits (`FRAC_BITS = 15` in `fft_compute.py`). -/
def FRAC_BITS : ℕ := 15

/-- `SCALE = 1 << FRAC_BITS = 32768`. -/
def SCALE : ℤ := 32768

/-- `MIN_Q15 = -(1 << 15)`. -/
def MIN_Q15 : ℤ := -32768

/-- `MAX_Q15 = (1 << 15) - 1`. -/
def MAX_Q15 : ℤ := 32767

/-- Python's built-in `round` / NumPy's `np.round` (round half to even) on `ℚ`. -/
def qRound (x : ℚ) : ℤ :=
  if Int.fract x = 1 / 2 then (if Even ⌊x⌋ then ⌊x⌋ else ⌊x⌋ + 1) else round x

open Classical in
/-- Python's built-in `round` (round half to even) on `ℝ`, used where the script
computes with `math.cos` / `math.sin`. -/
noncomputable def rRound (x : ℝ) : ℤ :=
  if Int.fract x = 1 / 2 then (if Even ⌊x⌋ then ⌊x⌋ else ⌊x⌋ + 1) else round x

/-- `to_int16`: wrap an integer to signed 16-bit two's complement.
`x &= 0xFFFF` is reduction mod `2 ^ 16` (the residue lies in `[0, 65536)`), and
the `x & 0x8000` sign-bit test on that residue is `32768 ≤ residue`. -/
def to_int16 (x : ℤ) : ℤ :=
  let y := x % 65536
  if 32768 ≤ y then y - 65536 else y

/-- `q15_from_word32`: unpack a 32-bit word into a complex value,
bits `[31:16]` the real part and `[15:0]` the imaginary part, each signed Q1.15. -/
def q15_from_word32 (word : ℕ) : ℚ × ℚ :=
  let real_raw : ℕ := (word >>> 16) &&& 0xFFFF
  let imag_raw : ℕ := word &&& 0xFFFF
  let real_int : ℤ := if real_raw &&& 0x8000 ≠ 0 then (real_raw : ℤ) - 0x10000 else (real_raw : ℤ)
  let imag_int : ℤ := if imag_raw &&& 0x8000 ≠ 0 then (imag_raw : ℤ) - 0x10000 else (imag_raw : ℤ)
  ((real_int : ℚ) / (SCALE : ℚ), (imag_int : ℚ) / (SCALE : ℚ))

/-- `word32_from_q15`: pack real/imag values into a 32-bit word in Q1.15,
rounding to nearest and saturating to `[MIN_Q15, MAX_Q15]`. -/
def word32_from_q15 (real_val imag_val : ℚ) : ℕ :=
  let r := max MIN_Q15 (min MAX_Q15 (qRound (real_val * (SCALE : ℚ))))
  let i := max MIN_Q15 (min MAX_Q15 (qRound (imag_val * (SCALE : ℚ))))
  let r' : ℤ := if r < 0 then 65536 + r else r
  let i' : ℤ := if i < 0 then 65536 + i else i
  ((r'.toNat &&& 0xFFFF) <<< 16) ||| (i'.toNat &&& 0xFFFF)

open Classical in
/-- `gen_twiddles_q15 N`: the quantized twiddle table
`W_N^k = exp(-2πik/N)` for `k = 0 .. N/2 - 1`, each coordinate scaled by
`SCALE`, rounded, and wrapped (not saturated) to signed 16 bits. -/
noncomputable def gen_twiddles_q15 (N : ℕ) : List (ℤ × ℤ) :=
  (List.range (N / 2)).map fun (k : ℕ) =>
    let angle : ℝ := -2 * Real.pi * (k : ℝ) / (N : ℝ)
    (to_int16 (rRound (Real.cos angle * (SCALE : ℝ))),
     to_int16 (rRound (Real.sin angle * (SCALE : ℝ))))

/-- `c_add_q15`: componentwise add with 16-bit wraparound. -/
def c_add_q15 (a b : ℤ × ℤ) : ℤ × ℤ :=
  (to_int16 (a.1 + b.1), to_int16 (a.2 + b.2))

/-- `c_sub_q15`: componentwise subtract with 16-bit wraparound. -/
def c_sub_q15 (a b : ℤ × ℤ) : ℤ × ℤ :=
  (to_int16 (a.1 - b.1), to_int16 (a.2 - b.2))

/-- `c_mul_q15`: complex Q1.15 multiply; wide products, sum/difference,
arithmetic right shift by `FRAC_BITS` (floor division), wrap to 16 bits. -/
def c_mul_q15 (a b : ℤ × ℤ) : ℤ × ℤ :=
  let ar_br := a.1 * b.1
  let ai_bi := a.2 * b.2
  let ar_bi := a.1 * b.2
  let ai_br := a.2 * b.1
  let pr_wide := ar_br - ai_bi
  let pi_wide := ar_bi + ai_br
  let pr := Int.fdiv pr_wide (2 ^ FRAC_BITS)
  let pi := Int.fdiv pi_wide (2 ^ FRAC_BITS)
  (to_int16 pr, to_int16 pi)

/-- Slot `a = base + j = g * group_size + j` of the butterfly for `(g, j)`. -/
def slotA (stage : ℕ) (gj : ℕ × ℕ) : ℕ := gj.1 * (2 ^ stage * 2) + gj.2

/-- Slot `b = a + stride` of the butterfly for `(g, j)`. -/
def slotB (stage : ℕ) (gj : ℕ × ℕ) : ℕ := slotA stage gj + 2 ^ stage

/-- One butterfly of `compute_fft_dit`'s inner loop at stage `stage`:
read slots `a`, `b`, multiply `buf[b]` by the twiddle `W = twiddles[exp % (N/2)]`
with `exp = j * tw_step`, then write `buf[a] + T` and `buf[a] - T` back. -/
def butterflyStep (N stage : ℕ) (twiddles : List (ℤ × ℤ)) (buf : List (ℤ × ℤ))
    (gj : ℕ × ℕ) : List (ℤ × ℤ) :=
  let stride := 2 ^ stage
  let group_size := stride * 2
  let tw_step := N / group_size
  let a := slotA stage gj
  let b := slotB stage gj
  let exp := gj.2 * tw_step
  let idx := exp % (N / 2)
  let W := twiddles.getD idx (0, 0)
  let A := buf.getD a (0, 0)
  let B := buf.getD b (0, 0)
  let T := c_mul_q15 B W
  (buf.set a (c_add_q15 A T)).set b (c_sub_q15 A T)

/-- The canonical `(g, j)` enumeration of one stage's butterflies:
`g` over `range num_groups` (outer loop), `j` over `range stride` (inner loop). -/
def stagePairs (N stage : ℕ) : List (ℕ × ℕ) :=
  (List.range (N / (2 ^ stage * 2))).product (List.range (2 ^ stage))

/-- One full stage of the DIT FFT, executed in the canonical nested order. -/
def runStage (N stage : ℕ) (twiddles buf : List (ℤ × ℤ)) : List (ℤ × ℤ) :=
  (stagePairs N stage).foldl (butterflyStep N stage twiddles) buf

/-- Input requantization at the top of `compute_fft_dit`:
`int(round(c * SCALE))`, clamp to `[MIN_Q15, MAX_Q15]`, then `to_int16`. -/
def quantizeSample (c : ℚ × ℚ) : ℤ × ℤ :=
  let r := max MIN_Q15 (min MAX_Q15 (qRound (c.1 * (SCALE : ℚ))))
  let i := max MIN_Q15 (min MAX_Q15 (qRound (c.2 * (SCALE : ℚ))))
  (to_int16 r, to_int16 i)

/-- Final conversion of the integer buffer back to values: `r / SCALE`. -/
def dequantizeSample (p : ℤ × ℤ) : ℚ × ℚ :=
  ((p.1 : ℚ) / (SCALE : ℚ), (p.2 : ℚ) / (SCALE : ℚ))

/-- The inner loop of `bit_reverse_indices`: `r = (r << 1) | (b & 1); b >>= 1`,
iterated `nbits` times. -/
def bitRevAux : ℕ → ℕ → ℕ → ℕ
  | 0, _, r => r
  | n + 1, b, r => bitRevAux n (b / 2) (2 * r + b % 2)

/-- Reverse the low `nbits` bits of `i`. -/
def bitRev (nbits i : ℕ) : ℕ := bitRevAux nbits i 0

/-- `bit_reverse_indices N`: the bit-reversal index table
(`nbits = int(math.log2(N))`; the power-of-two guard sits on the caller's
non-raising path, which only reaches this table for power-of-two `N`). -/
def bit_reverse_indices (N : ℕ) : List ℕ :=
  (List.range N).map (bitRev (Nat.log2 N))

/-- `bit_reverse_array`: `out[i] = x[rev[i]]` (numpy fancy indexing `x[idx]`). -/
def bit_reverse_array {α : Type*} (d : α) (x : List α) : List α :=
  (bit_reverse_indices x.length).map fun j => x.getD j d

/-- Body of `compute_fft_dit` after its guards: requantize, generate twiddles,
run the `log2 N` stages, dequantize, and bit-reverse the output. -/
noncomputable def fftBody (data : List (ℚ × ℚ)) : List (ℚ × ℚ) :=
  let N := data.length
  let buf := data.map quantizeSample
  let twiddles := gen_twiddles_q15 N
  let out :=
    ((List.range (Nat.log2 N)).foldl (fun b stage => runStage N stage twiddles b) buf).map
      dequantizeSample
  bit_reverse_array (0, 0) out

/-- `compute_fft_dit`. `none` models a raised exception: the explicit
`N & (N - 1) != 0` power-of-two guard (`ValueError`), and `math.log2(0.0)`
raising on `N = 0` (which slips past the guard, since `0 & -1 = 0`). -/
noncomputable def compute_fft_dit (data : List (ℚ × ℚ)) : Option (List (ℚ × ℚ)) :=
  let N := data.length
  if N &&& (N - 1) ≠ 0 then none
  else if N = 0 then none
  else some (fftBody data)

/-- The spec's end-to-end example input words. -/
def inputWords : List ℕ := [0x00000000, 0x00008000, 0x00000000, 0x00000000]

/-- The 4-point DFT of `[0, -1, 0, 0]` claimed by the spec: `[-1, j, 1, -j]`. -/
def dft4 : List (ℚ × ℚ) := [(-1, 0), (0, 1), (1, 0), (0, -1)]

/-- Modelled from the spec's wording of `wrap16(x)`: take `x mod 2^16` into
`[0, 2^16)`, then if the top bit is set, subtract `2^16`. -/
def wrap16_spec (x : ℤ) : ℤ :=
  let y := x % 65536
  if 32768 ≤ y then y - 65536 else y

/-- Modelled from the spec's wording of the encoder's saturation:
clamp to `[-32768, 32767]`. -/
def clampQ15 (x : ℤ) : ℤ := max (-32768) (min 32767 x)

/-- Report produced by `compare_results` in `fft_check.py`. -/
structure CompareReport where
  warned : Bool
  n : ℕ
  maxErr : ℝ
  meanErr : ℝ
  rmsErr : ℝ

/-- Complex absolute value of a pair, as used by `np.abs` on `complex128`. -/
noncomputable def cAbs (p : ℝ × ℝ) : ℝ := Real.sqrt (p.1 ^ 2 + p.2 ^ 2)

/-- `compare_results` from `fft_check.py`: truncate both inputs to the shorter
length (warning if the lengths differ), then report max / mean / RMS absolute
error. `np.max` of a zero-size array raises, modelled by `none`. The entries of
`abs_err` are nonnegative, so `np.max` over them is `foldl max 0`. -/
noncomputable def compare_results (ref dut : List (ℝ × ℝ)) : Option CompareReport :=
  let n := min ref.length dut.length
  let abs_err := List.zipWith (fun a b => cAbs (a.1 - b.1, a.2 - b.2)) (ref.take n) (dut.take n)
  if n = 0 then none
  else
    some ⟨decide (ref.length ≠ dut.length), n, abs_err.foldl max 0, abs_err.sum / n,
      Real.sqrt ((abs_err.map fun e => e ^ 2).sum / n)⟩

/-! ## Basic facts about the 16-bit wrap -/

theorem to_int16_eq_wrap16_spec (x : ℤ) : to_int16 x = wrap16_spec x := rfl

theorem to_int16_facts (x : ℤ) :
    -32768 ≤ to_int16 x ∧ to_int16 x ≤ 32767 ∧ (to_int16 x - x) % 65536 = 0 := by
  unfold to_int16
  dsimp only
  split <;> omega

theorem to_int16_of_range {x : ℤ} (h1 : -32768 ≤ x) (h2 : x ≤ 32767) : to_int16 x = x := by
  unfold to_int16
  dsimp only
  split <;> omega

theorem to_int16_wrap_top : to_int16 32768 = -32768 := by decide

theorem gen_twiddles_q15_length (N : ℕ) : (gen_twiddles_q15 N).length = N / 2 := by
  unfold gen_twiddles_q15
  rw [List.length_map, List.length_range]

/-- C4: the fixed-point complex multiply computes exactly the claimed formula:
wide products, the difference/sum shifted arithmetically (floor division by
`2 ^ 15`) while still wide, then pure modular wrap16 into `[-32768, 32767]`
with no saturation. -/
theorem c4_mul (ar ai br bi : ℤ)
    (h1 : -32768 ≤ ar) (h2 : ar ≤ 32767) (h3 : -32768 ≤ ai) (h4 : ai ≤ 32767)
    (h5 : -32768 ≤ br) (h6 : br ≤ 32767) (h7 : -32768 ≤ bi) (h8 : bi ≤ 32767) :
    c_mul_q15 (ar, ai) (br, bi) =
      (wrap16_spec (Int.fdiv (ar * br - ai * bi) (2 ^ 15)),
       wrap16_spec (Int.fdiv (ar * bi + ai * br) (2 ^ 15))) ∧
    -32768 ≤ (c_mul_q15 (ar, ai) (br, bi)).1 ∧ (c_mul_q15 (ar, ai) (br, bi)).1 ≤ 32767 ∧
    -32768 ≤ (c_mul_q15 (ar, ai) (br, bi)).2 ∧ (c_mul_q15 (ar, ai) (br, bi)).2 ≤ 32767 ∧
    ((c_mul_q15 (ar, ai) (br, bi)).1 - Int.fdiv (ar * br - ai * bi) (2 ^ 15)) % 65536 = 0 ∧
    ((c_mul_q15 (ar, ai) (br, bi)).2 - Int.fdiv (ar * bi + ai * br) (2 ^ 15)) % 65536 = 0 := by
  exact ⟨rfl, (to_int16_facts _).1, (to_int16_facts _).2.1, (to_int16_facts _).1,
    (to_int16_facts _).2.1, (to_int16_facts _).2.2, (to_int16_facts _).2.2⟩

theorem c4_mul_witness :
    c_mul_q15 (-32768, -32768) (-32768, 32767) =
      (wrap16_spec (Int.fdiv ((-32768) * (-32768) - (-32768) * 32767) (2 ^ 15)),
       wrap16_spec (Int.fdiv ((-32768) * 32767 + (-32768) * (-32768)) (2 ^ 15))) :=
  (c4_mul (-32768) (-32768) (-32768) 32767 (by decide) (by decide) (by decide) (by decide)
    (by decide) (by decide) (by decide) (by decide)).1

/-! ## C10: twiddle exponents stay below `N / 2` -/

/-- C10: for `N = 2 ^ m`, stage `s < m` and butterfly offset `j < 2 ^ s`, the
twiddle exponent `j * tw_step` (with `tw_step = N / group_size` as in
`butterflyStep`) is strictly below `N / 2`, so the `% (N / 2)` reduction is a
no-op and the access into the `N / 2`-entry table `gen_twiddles_q15 N` is in
bounds. -/
theorem c10_twiddle_idx (m s j : ℕ) (hs : s < m) (hj : j < 2 ^ s) :
    j * (2 ^ m / (2 ^ s * 2)) < 2 ^ m / 2 ∧
    j * (2 ^ m / (2 ^ s * 2)) % (2 ^ m / 2) = j * (2 ^ m / (2 ^ s * 2)) ∧
    j * (2 ^ m / (2 ^ s * 2)) < (gen_twiddles_q15 (2 ^ m)).length := by
  have hgs : (2 : ℕ) ^ s * 2 = 2 ^ (s + 1) := by rw [pow_succ]
  have hstep : 2 ^ m / (2 ^ s * 2) = 2 ^ (m - (s + 1)) := by
    rw [hgs, Nat.pow_div (by omega) (by norm_num)]
  have hhalf : 2 ^ m / 2 = 2 ^ (m - 1) := by
    rw [show (2 ^ m / 2 : ℕ) = 2 ^ m / 2 ^ 1 by norm_num]
    exact Nat.pow_div (by omega) (by norm_num)
  have hlt : j * (2 ^ m / (2 ^ s * 2)) < 2 ^ m / 2 := by
    rw [hstep, hhalf]
    calc j * 2 ^ (m - (s + 1)) < 2 ^ s * 2 ^ (m - (s + 1)) :=
          mul_lt_mul_of_pos_right hj (by positivity)
    _ = 2 ^ (m - 1) := by rw [← pow_add]; congr 1; omega
  refine ⟨hlt, Nat.mod_eq_of_lt hlt, ?_⟩
  rw [gen_twiddles_q15_length]
  exact hlt

theorem c10_twiddle_idx_witness :
    1 * (2 ^ 2 / (2 ^ 1 * 2)) < 2 ^ 2 / 2 ∧
    1 * (2 ^ 2 / (2 ^ 1 * 2)) % (2 ^ 2 / 2) = 1 * (2 ^ 2 / (2 ^ 1 * 2)) ∧
    1 * (2 ^ 2 / (2 ^ 1 * 2)) < (gen_twiddles_q15 (2 ^ 2)).length :=
  c10_twiddle_idx 2 1 1 (by decide) (by decide)

/-! ## C7: the power-of-two guard of `compute_fft_dit` -/

theorem land_eq_zero_iff {x y : ℕ} :
    x &&& y = 0 ↔ ∀ i, ¬(x.testBit i = true ∧ y.testBit i = true) := by
  constructor
  · intro h i hi
    have hbit := congrArg (fun z => Nat.testBit z i) h
    simp only [Nat.testBit_and, hi.1, hi.2, Bool.and_self, Nat.zero_testBit] at hbit
    exact Bool.noConfusion hbit
  · intro h
    apply Nat.eq_of_testBit_eq
    intro i
    rw [Nat.testBit_and, Nat.zero_testBit]
    cases hx : x.testBit i <;> cases hy : y.testBit i <;> simp
    exact h i ⟨hx, hy⟩

theorem pow2_of_guard : ∀ N : ℕ, N ≠ 0 → N &&& (N - 1) = 0 → ∃ k, N = 2 ^ k := by
  intro N
  induction N using Nat.strong_induction_on with
  | _ N ih =>
    intro h0 h
    rcases Nat.even_or_odd N with he | ho
    · obtain ⟨M, hM⟩ := he
      have hM2 : N = 2 * M := by omega
      have hMne : M ≠ 0 := by omega
      have hguard : M &&& (M - 1) = 0 := by
        rw [land_eq_zero_iff]
        intro i hi
        refine (land_eq_zero_iff.mp h) (i + 1) ⟨?_, ?_⟩
        · rw [Nat.testBit_add_one, show N / 2 = M by omega]
          exact hi.1
        · rw [Nat.testBit_add_one, show (N - 1) / 2 = M - 1 by omega]
          exact hi.2
      obtain ⟨k, hk⟩ := ih M (by omega) hMne hguard
      exact ⟨k + 1, by rw [hM2, hk, pow_succ]; ring⟩
    · rcases Nat.lt_or_ge N 2 with hlt | hge
      · refine ⟨0, by omega⟩
      · exfalso
        obtain ⟨t, ht⟩ := ho
        have htne : t ≠ 0 := by omega
        have hbit : ∃ u, t.testBit u = true := by
          by_contra hc
          push_neg at hc
          refine htne (Nat.eq_of_testBit_eq fun i => ?_)
          rw [Nat.zero_testBit]
          exact Bool.not_eq_true _ ▸ hc i
        obtain ⟨u, hu⟩ := hbit
        refine (land_eq_zero_iff.mp h) (u + 1) ⟨?_, ?_⟩
        · rw [Nat.testBit_add_one, show N / 2 = t by omega]
          exact hu
        · rw [Nat.testBit_add_one, show (N - 1) / 2 = t by omega]
          exact hu

theorem guard_of_pow2 (k : ℕ) : 2 ^ k &&& (2 ^ k - 1) = 0 := by
  rw [land_eq_zero_iff]
  intro i hi
  rcases eq_or_ne k i with rfl | hne
  · have : (2 ^ k - 1).testBit k = false :=
      Nat.testBit_lt_two_pow (by exact Nat.sub_lt (Nat.pos_pow_of_pos _ (by norm_num)) one_pos)
    rw [this] at hi
    exact absurd hi.2 (by simp)
  · have : (2 ^ k).testBit i = false := Nat.testBit_two_pow_of_ne hne
    rw [this] at hi
    exact absurd hi.1 (by simp)

theorem butterflyStep_length (N s : ℕ) (tw buf : List (ℤ × ℤ)) (gj : ℕ × ℕ) :
    (butterflyStep N s tw buf gj).length = buf.length := by
  simp [butterflyStep]

theorem foldl_butterfly_length (N s : ℕ) (tw : List (ℤ × ℤ)) :
    ∀ (l : List (ℕ × ℕ)) (buf : List (ℤ × ℤ)),
      (l.foldl (butterflyStep N s tw) buf).length = buf.length := by
  intro l
  induction l with
  | nil => intro buf; rfl
  | cons p t ih =>
    intro buf
    rw [List.foldl_cons, ih, butterflyStep_length]

theorem runStage_length (N s : ℕ) (tw buf : List (ℤ × ℤ)) :
    (runStage N s tw buf).length = buf.length :=
  foldl_butterfly_length N s tw _ buf

theorem stagesFold_length (N : ℕ) (tw : List (ℤ × ℤ)) :
    ∀ (l : List ℕ) (buf : List (ℤ × ℤ)),
      (l.foldl (fun b stage => runStage N stage tw b) buf).length = buf.length := by
  intro l
  induction l with
  | nil => intro buf; rfl
  | cons s t ih =>
    intro buf
    rw [List.foldl_cons, ih, runStage_length]

theorem bit_reverse_array_length {α : Type*} (d : α) (x : List α) :
    (bit_reverse_array d x).length = x.length := by
  simp [bit_reverse_array, bit_reverse_indices]

theorem fftBody_length (data : List (ℚ × ℚ)) : (fftBody data).length = data.length := by
  simp only [fftBody]
  rw [bit_reverse_array_length, List.length_map, stagesFold_length, List.length_map]

/-- C7: `compute_fft_dit` raises exactly when the input length is not a power of
two (including `N = 0`, where `math.log2` raises), and on every power-of-two
length it returns an `N`-element buffer. -/
theorem c7_guard (data : List (ℚ × ℚ)) :
    (compute_fft_dit data = none ↔ ¬∃ k, data.length = 2 ^ k) ∧
    ∀ out, compute_fft_dit data = some out → out.length = data.length := by
  constructor
  · unfold compute_fft_dit
    dsimp only
    split
    case isTrue hg =>
      simp only [iff_true_intro rfl, true_iff]
      rintro ⟨k, hk⟩
      exact hg (by rw [hk]; exact guard_of_pow2 k)
    case isFalse hg =>
      split
      case isTrue h0 =>
        simp only [iff_true_intro rfl, true_iff]
        rintro ⟨k, hk⟩
        have hp : 0 < 2 ^ k := Nat.pos_pow_of_pos k (by norm_num)
        omega
      case isFalse h0 =>
        constructor
        · intro hnone
          exact absurd hnone (by simp)
        · intro hnp
          exact absurd (pow2_of_guard _ h0 (by omega)) hnp
  · intro out hout
    unfold compute_fft_dit at hout
    dsimp only at hout
    split at hout
    · exact absurd hout (by simp)
    · split at hout
      · exact absurd hout (by simp)
      · rw [← Option.some_inj.mp hout, fftBody_length]

theorem c7_guard_witness :
    compute_fft_dit [((0 : ℚ), (0 : ℚ)), (0, 0), (0, 0), (0, 0)] ≠ none :=
  fun h => ((c7_guard [(0, 0), (0, 0), (0, 0), (0, 0)]).1.mp h) ⟨2, by decide⟩

/-! ## C5: bit reversal is an involution and a bijection -/

theorem bitRevAux_eq (n : ℕ) : ∀ b r, bitRevAux n b r = r * 2 ^ n + bitRev n b := by
  induction n with
  | zero => intro b r; simp [bitRevAux, bitRev]
  | succ n ih =>
    intro b r
    show bitRevAux n (b / 2) (2 * r + b % 2) = r * 2 ^ (n + 1) + bitRev (n + 1) b
    rw [ih]
    show (2 * r + b % 2) * 2 ^ n + bitRev n (b / 2) =
      r * 2 ^ (n + 1) + bitRevAux n (b / 2) (2 * 0 + b % 2)
    rw [ih]
    ring

theorem bitRev_succ (n b : ℕ) : bitRev (n + 1) b = b % 2 * 2 ^ n + bitRev n (b / 2) := by
  show bitRevAux n (b / 2) (2 * 0 + b % 2) = b % 2 * 2 ^ n + bitRev n (b / 2)
  rw [bitRevAux_eq]
  ring

theorem bitRev_lt (n : ℕ) : ∀ b, bitRev n b < 2 ^ n := by
  induction n with
  | zero => intro b; simp [bitRev, bitRevAux]
  | succ n ih =>
    intro b
    rw [bitRev_succ, pow_succ]
    have h1 := ih (b / 2)
    have h2 : b % 2 = 0 ∨ b % 2 = 1 := Nat.mod_two_eq_zero_or_one b
    rcases h2 with h2 | h2 <;> rw [h2] <;> omega

theorem bitRev_flip (n : ℕ) : ∀ c w, c ≤ 1 → w < 2 ^ n →
    bitRev (n + 1) (c * 2 ^ n + w) = 2 * bitRev n w + c := by
  induction n with
  | zero =>
    intro c w hc hw
    interval_cases w
    interval_cases c <;> decide
  | succ n ih =>
    intro c w hc hw
    have hpow : (2 : ℕ) ^ (n + 1) = 2 * 2 ^ n := by rw [pow_succ]; ring
    have hw2 : w / 2 < 2 ^ n := by omega
    interval_cases c
    · have hmod : (0 * 2 ^ (n + 1) + w) % 2 = w % 2 := by omega
      have hdiv : (0 * 2 ^ (n + 1) + w) / 2 = 0 * 2 ^ n + w / 2 := by omega
      rw [bitRev_succ, hmod, hdiv, ih 0 (w / 2) (by omega) hw2, bitRev_succ n w, hpow]
      ring
    · have hmod : (1 * 2 ^ (n + 1) + w) % 2 = w % 2 := by omega
      have hdiv : (1 * 2 ^ (n + 1) + w) / 2 = 1 * 2 ^ n + w / 2 := by omega
      rw [bitRev_succ, hmod, hdiv, ih 1 (w / 2) (by omega) hw2, bitRev_succ n w, hpow]
      ring

theorem bitRev_bitRev (m : ℕ) : ∀ i, i < 2 ^ m → bitRev m (bitRev m i) = i := by
  induction m with
  | zero =>
    intro i hi
    interval_cases i
    decide
  | succ n ih =>
    intro i hi
    have hR : bitRev n (i / 2) < 2 ^ n := bitRev_lt n (i / 2)
    have hc : i % 2 ≤ 1 := by omega
    rw [bitRev_succ n i, bitRev_flip n (i % 2) (bitRev n (i / 2)) hc hR,
      ih (i / 2) (by rw [pow_succ] at hi; omega)]
    omega

theorem log2_two_pow (m : ℕ) : Nat.log2 (2 ^ m) = m := by
  rw [Nat.log2_eq_log_two]
  exact Nat.log_pow (by norm_num) m

theorem bit_reverse_array_get? {α : Type*} (d : α) (y : List α) (m j : ℕ)
    (hy : y.length = 2 ^ m) (hj : j < 2 ^ m) :
    (bit_reverse_array d y)[j]? = some (y.getD (bitRev m j) d) := by
  unfold bit_reverse_array bit_reverse_indices
  rw [hy, log2_two_pow, List.getElem?_map, List.getElem?_map, List.getElem?_range hj]
  rfl

theorem bit_reverse_array_getD {α : Type*} (d : α) (y : List α) (m j : ℕ)
    (hy : y.length = 2 ^ m) (hj : j < 2 ^ m) :
    (bit_reverse_array d y).getD j d = y.getD (bitRev m j) d := by
  rw [List.getD_eq_getElem?_getD, bit_reverse_array_get? d y m j hy hj]
  rfl

/-- C5: `bitRev m` (the per-index computation of `bit_reverse_indices`) is an
involution on `[0, 2^m)` and a bijection of that interval onto itself, so
applying `bit_reverse_array` twice to any buffer of length `2 ^ m` returns the
original buffer. -/
theorem c5_bitrev {α : Type*} (m : ℕ) :
    (∀ i, i < 2 ^ m → bitRev m (bitRev m i) = i) ∧
    Set.BijOn (bitRev m) (Set.Iio (2 ^ m)) (Set.Iio (2 ^ m)) ∧
    (∀ i, i < 2 ^ m → (bit_reverse_indices (2 ^ m)).getD i 0 = bitRev m i) ∧
    ∀ (d : α) (x : List α), x.length = 2 ^ m →
      bit_reverse_array d (bit_reverse_array d x) = x := by
  refine ⟨bitRev_bitRev m, ⟨?_, ?_, ?_⟩, ?_, ?_⟩
  · intro i hi
    exact Set.mem_Iio.mpr (bitRev_lt m i)
  · intro i hi j hj hij
    rw [← bitRev_bitRev m i (Set.mem_Iio.mp hi), hij, bitRev_bitRev m j (Set.mem_Iio.mp hj)]
  · intro j hj
    exact ⟨bitRev m j, Set.mem_Iio.mpr (bitRev_lt m j),
      bitRev_bitRev m j (Set.mem_Iio.mp hj)⟩
  · intro i hi
    unfold bit_reverse_indices
    rw [log2_two_pow, List.getD_eq_getElem?_getD, List.getElem?_map, List.getElem?_range hi]
    rfl
  · intro d x hx
    have hylen : (bit_reverse_array d x).length = 2 ^ m := by
      rw [bit_reverse_array_length, hx]
    apply List.ext_getElem?
    intro j
    by_cases hj : j < 2 ^ m
    · rw [bit_reverse_array_get? d (bit_reverse_array d x) m j hylen hj,
        bit_reverse_array_getD d x m (bitRev m j) hx (bitRev_lt m j),
        bitRev_bitRev m j hj,
        List.getD_eq_getElem?_getD, List.getElem?_eq_getElem (hx ▸ hj)]
      rfl
    · rw [List.getElem?_eq_none (by rw [bit_reverse_array_length, hylen]; omega),
        List.getElem?_eq_none (by rw [hx]; omega)]

theorem c5_bitrev_witness :
    bitRev 3 (bitRev 3 6) = 6 ∧
    bit_reverse_array 0 (bit_reverse_array 0 [1, 2, 3, 4, 5, 6, 7, 8]) =
      [1, 2, 3, 4, 5, 6, 7, 8] :=
  ⟨(@c5_bitrev ℕ 3).1 6 (by decide),
   (@c5_bitrev ℕ 3).2.2.2 0 [1, 2, 3, 4, 5, 6, 7, 8] (by decide)⟩

/-! ## C6: butterflies of one stage touch disjoint slots; order independence -/

theorem add_mul_div_inj {P : ℕ} (hP : 0 < P) {g g' r r' : ℕ} (hr : r < P) (hr' : r' < P)
    (h : g * P + r = g' * P + r') : g = g' ∧ r = r' := by
  have e1 : r + P * g = r' + P * g' := by
    calc r + P * g = g * P + r := by ring
    _ = g' * P + r' := h
    _ = r' + P * g' := by ring
  have e2 : r = r' := by
    have := congrArg (fun t => t % P) e1
    simpa [Nat.add_mul_mod_self_left, Nat.mod_eq_of_lt hr, Nat.mod_eq_of_lt hr'] using this
  refine ⟨?_, e2⟩
  subst e2
  exact Nat.eq_of_mul_eq_mul_left hP (by omega)

theorem slot_inj (s : ℕ) {g j h g' j' h' : ℕ} (hj : j < 2 ^ s) (hj' : j' < 2 ^ s)
    (hh : h ≤ 1) (hh' : h' ≤ 1)
    (heq : g * (2 ^ s * 2) + (h * 2 ^ s + j) = g' * (2 ^ s * 2) + (h' * 2 ^ s + j')) :
    g = g' ∧ h = h' ∧ j = j' := by
  have hP : 0 < 2 ^ s := Nat.pos_pow_of_pos s (by norm_num)
  have hin : h * 2 ^ s + j < 2 ^ s * 2 := by
    have : h * 2 ^ s ≤ 1 * 2 ^ s := Nat.mul_le_mul_right _ hh
    omega
  have hin' : h' * 2 ^ s + j' < 2 ^ s * 2 := by
    have : h' * 2 ^ s ≤ 1 * 2 ^ s := Nat.mul_le_mul_right _ hh'
    omega
  obtain ⟨hg, hrest⟩ := add_mul_div_inj (by omega) hin hin' heq
  obtain ⟨hh2, hj2⟩ := add_mul_div_inj hP hj hj' (by
    calc h * 2 ^ s + j = h * 2 ^ s + j := rfl
    _ = h' * 2 ^ s + j' := hrest)
  exact ⟨hg, hh2, hj2⟩

theorem mem_stagePairs {N s : ℕ} {p : ℕ × ℕ} :
    p ∈ stagePairs N s ↔ p.1 < N / (2 ^ s * 2) ∧ p.2 < 2 ^ s := by
  obtain ⟨g, j⟩ := p
  simp [stagePairs, List.pair_mem_product, List.mem_range]

theorem slotA_eq (s : ℕ) (p : ℕ × ℕ) : slotA s p = p.1 * (2 ^ s * 2) + (0 * 2 ^ s + p.2) := by
  unfold slotA
  ring

theorem slotB_eq (s : ℕ) (p : ℕ × ℕ) : slotB s p = p.1 * (2 ^ s * 2) + (1 * 2 ^ s + p.2) := by
  unfold slotB slotA
  ring

theorem slots_disjoint (s : ℕ) {p q : ℕ × ℕ} (hp : p.2 < 2 ^ s) (hq : q.2 < 2 ^ s)
    (hne : p ≠ q) :
    slotA s p ≠ slotA s q ∧ slotA s p ≠ slotB s q ∧
    slotB s p ≠ slotA s q ∧ slotB s p ≠ slotB s q := by
  refine ⟨fun h => ?_, fun h => ?_, fun h => ?_, fun h => ?_⟩
  · rw [slotA_eq, slotA_eq] at h
    obtain ⟨h1, _, h3⟩ := slot_inj s hp hq (by omega) (by omega) h
    exact hne (Prod.ext h1 h3)
  · rw [slotA_eq, slotB_eq] at h
    obtain ⟨_, h2, _⟩ := slot_inj s hp hq (by omega) (by omega) h
    omega
  · rw [slotB_eq, slotA_eq] at h
    obtain ⟨_, h2, _⟩ := slot_inj s hp hq (by omega) (by omega) h
    omega
  · rw [slotB_eq, slotB_eq] at h
    obtain ⟨h1, _, h3⟩ := slot_inj s hp hq (by omega) (by omega) h
    exact hne (Prod.ext h1 h3)

theorem getD_set_ne {α : Type*} (d : α) (l : List α) {i j : ℕ} (h : i ≠ j) (v : α) :
    (l.set i v).getD j d = l.getD j d := by
  rw [List.getD_eq_getElem?_getD, List.getElem?_set_ne h, List.getD_eq_getElem?_getD]

theorem set4_swap {α : Type*} (z : List α) (i1 i2 i3 i4 : ℕ) (v1 v2 v3 v4 : α)
    (h13 : i1 ≠ i3) (h14 : i1 ≠ i4) (h23 : i2 ≠ i3) (h24 : i2 ≠ i4) :
    (((z.set i1 v1).set i2 v2).set i3 v3).set i4 v4 =
    (((z.set i3 v3).set i4 v4).set i1 v1).set i2 v2 := by
  rw [List.set_comm v2 v3 (z.set i1 v1) h23, List.set_comm v1 v3 z h13,
    List.set_comm v2 v4 ((z.set i3 v3).set i1 v1) h24, List.set_comm v1 v4 (z.set i3 v3) h14]

theorem butterflyStep_comm_of_disjoint (N s : ℕ) (tw : List (ℤ × ℤ)) (p q : ℕ × ℕ)
    (h1 : slotA s p ≠ slotA s q) (h2 : slotA s p ≠ slotB s q)
    (h3 : slotB s p ≠ slotA s q) (h4 : slotB s p ≠ slotB s q)
    (z : List (ℤ × ℤ)) :
    butterflyStep N s tw (butterflyStep N s tw z p) q =
      butterflyStep N s tw (butterflyStep N s tw z q) p := by
  simp only [butterflyStep]
  rw [getD_set_ne _ _ h3 _, getD_set_ne _ _ h1 _]
  rw [getD_set_ne _ _ h4 _, getD_set_ne _ _ h2 _]
  rw [getD_set_ne _ _ h2.symm _, getD_set_ne _ _ h1.symm _]
  rw [getD_set_ne _ _ h4.symm _, getD_set_ne _ _ h3.symm _]
  exact set4_swap z _ _ _ _ _ _ _ _ h1 h2 h3 h4

/-- C6: at every stage `s < m` of an `N = 2 ^ m` transform, the butterfly slot
pairs `(slotA, slotB)` over the canonical `(g, j)` enumeration are pairwise
disjoint and cover `[0, N)` exactly once, and executing the stage's butterflies
in any permuted order produces the same buffer as the canonical order
(`runStage`). -/
theorem c6_stage (m s : ℕ) (hs : s < m) :
    (∀ p ∈ stagePairs (2 ^ m) s, ∀ q ∈ stagePairs (2 ^ m) s, p ≠ q →
      slotA s p ≠ slotA s q ∧ slotA s p ≠ slotB s q ∧
      slotB s p ≠ slotA s q ∧ slotB s p ≠ slotB s q) ∧
    (∀ i < 2 ^ m, ∃ p ∈ stagePairs (2 ^ m) s, i = slotA s p ∨ i = slotB s p) ∧
    (∀ (tw buf : List (ℤ × ℤ)) (l : List (ℕ × ℕ)), l.Perm (stagePairs (2 ^ m) s) →
      l.foldl (butterflyStep (2 ^ m) s tw) buf = runStage (2 ^ m) s tw buf) := by
  have hP : 0 < 2 ^ s := Nat.pos_pow_of_pos s (by norm_num)
  have h2P : (2 : ℕ) ^ s * 2 = 2 ^ (s + 1) := by rw [pow_succ]
  have hdvd : (2 : ℕ) ^ (s + 1) ∣ 2 ^ m := pow_dvd_pow 2 (by omega)
  have hNG : 2 ^ (s + 1) * (2 ^ m / 2 ^ (s + 1)) = 2 ^ m := Nat.mul_div_cancel' hdvd
  refine ⟨?_, ?_, ?_⟩
  · intro p hp q hq hne
    exact slots_disjoint s (mem_stagePairs.mp hp).2 (mem_stagePairs.mp hq).2 hne
  · intro i hi
    have hpos : 0 < 2 ^ (s + 1) := Nat.pos_pow_of_pos _ (by norm_num)
    have hg : i / 2 ^ (s + 1) < 2 ^ m / 2 ^ (s + 1) := by
      rw [Nat.div_lt_iff_lt_mul hpos]
      calc i < 2 ^ m := hi
      _ = 2 ^ m / 2 ^ (s + 1) * 2 ^ (s + 1) := by rw [mul_comm] at hNG; omega
    have hr : i % 2 ^ (s + 1) < 2 ^ (s + 1) := Nat.mod_lt _ hpos
    have hdm : 2 ^ (s + 1) * (i / 2 ^ (s + 1)) + i % 2 ^ (s + 1) = i := Nat.div_add_mod i _
    by_cases hcase : i % 2 ^ (s + 1) < 2 ^ s
    · refine ⟨(i / 2 ^ (s + 1), i % 2 ^ (s + 1)), mem_stagePairs.mpr ⟨?_, hcase⟩, Or.inl ?_⟩
      · rw [h2P]
        exact hg
      · unfold slotA
        dsimp only
        rw [h2P, mul_comm]
        exact (Nat.div_add_mod i (2 ^ (s + 1))).symm
    · refine ⟨(i / 2 ^ (s + 1), i % 2 ^ (s + 1) - 2 ^ s),
        mem_stagePairs.mpr ⟨?_, by rw [pow_succ] at hr; omega⟩, Or.inr ?_⟩
      · rw [h2P]
        exact hg
      · unfold slotB slotA
        dsimp only
        rw [h2P, add_assoc]
        have hback : i % 2 ^ (s + 1) - 2 ^ s + 2 ^ s = i % 2 ^ (s + 1) := by omega
        rw [hback, mul_comm]
        exact (Nat.div_add_mod i (2 ^ (s + 1))).symm
  · intro tw buf l hperm
    refine hperm.foldl_eq' ?_ buf
    intro x hx y hy z
    rcases eq_or_ne x y with rfl | hne
    · rfl
    · have hx' := mem_stagePairs.mp (hperm.subset hx)
      have hy' := mem_stagePairs.mp (hperm.subset hy)
      obtain ⟨d1, d2, d3, d4⟩ := slots_disjoint s hx'.2 hy'.2 hne
      exact butterflyStep_comm_of_disjoint _ s tw x y d1 d2 d3 d4 z

theorem c6_stage_witness :
    [((1 : ℕ), (0 : ℕ)), (0, 0)].foldl (butterflyStep (2 ^ 2) 0 [(32767, 0), (0, -32768)])
        [(1, 2), (3, 4), (5, 6), (7, 8)] =
      runStage (2 ^ 2) 0 [(32767, 0), (0, -32768)] [(1, 2), (3, 4), (5, 6), (7, 8)] :=
  (c6_stage 2 0 (by decide)).2.2 [(32767, 0), (0, -32768)] [(1, 2), (3, 4), (5, 6), (7, 8)]
    [(1, 0), (0, 0)] (by decide)

/-! ## Codec: rounding, packing and unpacking -/

theorem qRound_intCast (n : ℤ) : qRound ((n : ℚ)) = n := by
  unfold qRound
  rw [Int.fract_intCast]
  norm_num [round_intCast]

theorem abs_qRound_sub (x : ℚ) : |(qRound x : ℚ) - x| ≤ 1 / 2 := by
  unfold qRound
  split
  case isTrue h =>
    have hfract : x - (⌊x⌋ : ℚ) = 1 / 2 := h
    split
    case isTrue _ =>
      rw [abs_sub_comm, show x - ((⌊x⌋ : ℤ) : ℚ) = 1 / 2 from hfract]
      norm_num [abs_le]
    case isFalse _ =>
      have : ((⌊x⌋ + 1 : ℤ) : ℚ) - x = 1 / 2 := by
        push_cast
        have : x - (⌊x⌋ : ℚ) = 1 / 2 := hfract
        linarith
      rw [this]
      norm_num [abs_le]
  case isFalse h =>
    rw [abs_sub_comm]
    exact abs_sub_round x

theorem and_mask_16 {x : ℕ} (hx : x < 65536) : x &&& 0xFFFF = x := by
  rw [show (0xFFFF : ℕ) = 2 ^ 16 - 1 by norm_num]
  exact Nat.and_pow_two_sub_one_of_lt_two_pow (by norm_num [hx])

theorem pack_fields (rn inn : ℕ) (hr : rn < 65536) (hi : inn < 65536) :
    (((rn <<< 16) ||| inn) >>> 16) &&& 0xFFFF = rn ∧
    ((rn <<< 16) ||| inn) &&& 0xFFFF = inn := by
  have hi' : inn < 2 ^ 16 := by norm_num [hi]
  have hor : (rn <<< 16) ||| inn = 2 ^ 16 * rn + inn := by
    rw [Nat.shiftLeft_eq, mul_comm]
    exact (Nat.mul_add_lt_is_or hi' rn).symm
  constructor
  · rw [hor, Nat.shiftRight_eq_div_pow, Nat.mul_add_div (by norm_num), Nat.div_eq_of_lt hi',
      Nat.add_zero]
    exact and_mask_16 hr
  · rw [hor, show (0xFFFF : ℕ) = 2 ^ 16 - 1 by norm_num, Nat.and_pow_two_sub_one_eq_mod,
      Nat.mul_add_mod]
    exact Nat.mod_eq_of_lt hi'

theorem and_sign_bit {x : ℕ} (hx : x < 65536) : (x &&& 0x8000 ≠ 0) ↔ 32768 ≤ x := by
  rw [show (0x8000 : ℕ) = 2 ^ 15 by norm_num, Nat.and_two_pow, Nat.testBit_to_div_mod,
    show (2 : ℕ) ^ 15 = 32768 by norm_num]
  rcases Nat.lt_or_ge x 32768 with h | h
  · have hdiv : x / 32768 % 2 = 0 := by omega
    rw [hdiv]
    norm_num
    omega
  · have hdiv : x / 32768 % 2 = 1 := by omega
    rw [hdiv]
    norm_num
    omega

theorem pack_unpack (rint iint : ℤ) (hr1 : -32768 ≤ rint) (hr2 : rint ≤ 32767)
    (hi1 : -32768 ≤ iint) (hi2 : iint ≤ 32767) :
    q15_from_word32
      ((((if rint < 0 then 65536 + rint else rint).toNat &&& 0xFFFF) <<< 16) |||
        ((if iint < 0 then 65536 + iint else iint).toNat &&& 0xFFFF)) =
      ((rint : ℚ) / (SCALE : ℚ), (iint : ℚ) / (SCALE : ℚ)) := by
  set rn : ℕ := (if rint < 0 then 65536 + rint else rint).toNat with hrn
  set inn : ℕ := (if iint < 0 then 65536 + iint else iint).toNat with hinn
  have hrn_cast : (rn : ℤ) = if rint < 0 then 65536 + rint else rint := by
    rw [hrn]
    split <;> omega
  have hinn_cast : (inn : ℤ) = if iint < 0 then 65536 + iint else iint := by
    rw [hinn]
    split <;> omega
  have hrn_lt : rn < 65536 := by
    have := hrn_cast
    split at this <;> omega
  have hinn_lt : inn < 65536 := by
    have := hinn_cast
    split at this <;> omega
  unfold q15_from_word32
  rw [and_mask_16 hrn_lt, and_mask_16 hinn_lt]
  obtain ⟨hf1, hf2⟩ := pack_fields rn inn hrn_lt hinn_lt
  rw [hf1, hf2]
  simp only [and_sign_bit hrn_lt, and_sign_bit hinn_lt]
  have keyr : (if 32768 ≤ rn then (rn : ℤ) - 0x10000 else (rn : ℤ)) = rint := by
    split at hrn_cast <;> split <;> omega
  have keyi : (if 32768 ≤ inn then (inn : ℤ) - 0x10000 else (inn : ℤ)) = iint := by
    split at hinn_cast <;> split <;> omega
  rw [keyr, keyi]

theorem clamp_bounds (t : ℤ) :
    -32768 ≤ max MIN_Q15 (min MAX_Q15 t) ∧ max MIN_Q15 (min MAX_Q15 t) ≤ 32767 := by
  unfold MIN_Q15 MAX_Q15
  omega

theorem decode_encode_raw (rv iv : ℚ) :
    q15_from_word32 (word32_from_q15 rv iv) =
      (((max MIN_Q15 (min MAX_Q15 (qRound (rv * (SCALE : ℚ)))) : ℤ) : ℚ) / (SCALE : ℚ),
       ((max MIN_Q15 (min MAX_Q15 (qRound (iv * (SCALE : ℚ)))) : ℤ) : ℚ) / (SCALE : ℚ)) := by
  unfold word32_from_q15
  exact pack_unpack _ _ (clamp_bounds _).1 (clamp_bounds _).2 (clamp_bounds _).1 (clamp_bounds _).2

theorem clampQ15_eq (t : ℤ) : max MIN_Q15 (min MAX_Q15 t) = clampQ15 t := rfl

theorem word32_from_q15_lt (re im : ℚ) : word32_from_q15 re im < 2 ^ 32 := by
  unfold word32_from_q15
  apply Nat.or_lt_two_pow
  · have hA : (if max MIN_Q15 (min MAX_Q15 (qRound (re * (SCALE : ℚ)))) < 0 then
        65536 + max MIN_Q15 (min MAX_Q15 (qRound (re * (SCALE : ℚ))))
      else max MIN_Q15 (min MAX_Q15 (qRound (re * (SCALE : ℚ))))).toNat &&& 0xFFFF ≤ 65535 :=
      Nat.and_le_right
    rw [Nat.shiftLeft_eq]
    calc _ ≤ (65535 : ℕ) * 2 ^ 16 := Nat.mul_le_mul_right _ hA
    _ < 2 ^ 32 := by norm_num
  · calc _ ≤ (65535 : ℕ) := Nat.and_le_right
    _ < 2 ^ 32 := by norm_num

/-- C9: the encoder multiplies each component by `2 ^ 15`, rounds to nearest,
saturates (clamps) to `[-32768, 32767]`, and packs real into bits 31:16 and
imaginary into bits 15:0 as 16-bit two's complement: decoding the packed word
recovers exactly the clamped rounded values scaled back down; the word fits in
32 bits; at or beyond the representable range the stored component is pinned to
the range boundary (it never wraps). -/
theorem c9_encode (re im : ℚ) :
    q15_from_word32 (word32_from_q15 re im) =
      (((clampQ15 (qRound (re * 2 ^ 15)) : ℤ) : ℚ) / 2 ^ 15,
       ((clampQ15 (qRound (im * 2 ^ 15)) : ℤ) : ℚ) / 2 ^ 15) ∧
    word32_from_q15 re im < 2 ^ 32 ∧
    (1 ≤ re → (q15_from_word32 (word32_from_q15 re im)).1 = 32767 / 2 ^ 15) ∧
    (re ≤ -1 → (q15_from_word32 (word32_from_q15 re im)).1 = -32768 / 2 ^ 15) := by
  have hS : ((SCALE : ℤ) : ℚ) = 2 ^ 15 := by norm_num [SCALE]
  have h := decode_encode_raw re im
  rw [hS] at h
  simp only [clampQ15_eq] at h
  refine ⟨h, word32_from_q15_lt re im, ?_, ?_⟩
  · intro hre
    have habs := abs_qRound_sub (re * 2 ^ 15)
    rw [abs_le] at habs
    obtain ⟨hab1, hab2⟩ := habs
    set Q : ℤ := qRound (re * 2 ^ 15) with hQ
    have hx : (32768 : ℚ) ≤ re * 2 ^ 15 := by nlinarith
    have hgt : (32767 : ℤ) < Q := by
      by_contra hc
      push_neg at hc
      have hcq : (Q : ℚ) ≤ 32767 := by exact_mod_cast hc
      linarith
    have hcl : clampQ15 Q = 32767 := by
      unfold clampQ15
      omega
    rw [h]
    dsimp only
    rw [hcl]
    norm_num
  · intro hre
    have habs := abs_qRound_sub (re * 2 ^ 15)
    rw [abs_le] at habs
    obtain ⟨hab1, hab2⟩ := habs
    set Q : ℤ := qRound (re * 2 ^ 15) with hQ
    have hx : re * 2 ^ 15 ≤ -32768 := by nlinarith
    have hlt : Q < -32767 := by
      by_contra hc
      push_neg at hc
      have hcq : (-32767 : ℚ) ≤ (Q : ℚ) := by exact_mod_cast hc
      linarith
    have hcl : clampQ15 Q = -32768 := by
      unfold clampQ15
      omega
    rw [h]
    dsimp only
    rw [hcl]
    norm_num

theorem c9_encode_witness :
    (q15_from_word32 (word32_from_q15 2 (-2))).1 = 32767 / 2 ^ 15 :=
  (c9_encode 2 (-2)).2.2.1 (by norm_num)

/-- C3: for every representable Q1.15 complex value (components `rv / 2 ^ 15`
with `rv` a signed 16-bit integer), encoding and then decoding returns the value
exactly, with no double rounding. -/
theorem c3_roundtrip (rv iv : ℤ) (h1 : -32768 ≤ rv) (h2 : rv ≤ 32767)
    (h3 : -32768 ≤ iv) (h4 : iv ≤ 32767) :
    q15_from_word32 (word32_from_q15 ((rv : ℚ) / 2 ^ 15) ((iv : ℚ) / 2 ^ 15)) =
      ((rv : ℚ) / 2 ^ 15, (iv : ℚ) / 2 ^ 15) := by
  have hS : ((SCALE : ℤ) : ℚ) = 2 ^ 15 := by norm_num [SCALE]
  have h := decode_encode_raw ((rv : ℚ) / 2 ^ 15) ((iv : ℚ) / 2 ^ 15)
  rw [hS] at h
  have hvr : ((rv : ℚ) / 2 ^ 15) * 2 ^ 15 = (rv : ℚ) := by field_simp
  have hvi : ((iv : ℚ) / 2 ^ 15) * 2 ^ 15 = (iv : ℚ) := by field_simp
  rw [hvr, hvi, qRound_intCast, qRound_intCast] at h
  have hclr : max MIN_Q15 (min MAX_Q15 rv) = rv := by
    unfold MIN_Q15 MAX_Q15
    omega
  have hcli : max MIN_Q15 (min MAX_Q15 iv) = iv := by
    unfold MIN_Q15 MAX_Q15
    omega
  rw [hclr, hcli] at h
  exact h

theorem c3_roundtrip_witness :
    q15_from_word32
        (word32_from_q15 (((-32768 : ℤ) : ℚ) / 2 ^ 15) (((32767 : ℤ) : ℚ) / 2 ^ 15)) =
      (((-32768 : ℤ) : ℚ) / 2 ^ 15, ((32767 : ℤ) : ℚ) / 2 ^ 15) :=
  c3_roundtrip (-32768) 32767 (by norm_num) (by norm_num) (by norm_num) (by norm_num)

/-! ## C8: the comparator -/

theorem foldl_max_zero : ∀ l : List ℝ, (∀ x ∈ l, x = 0) → l.foldl max 0 = 0 := by
  intro l
  induction l with
  | nil => intro _; rfl
  | cons a t ih =>
    intro h
    rw [List.foldl_cons, h a (List.mem_cons_self a t), max_self]
    exact ih fun x hx => h x (List.mem_cons_of_mem _ hx)

theorem cAbs_self_zero (a : ℝ × ℝ) : cAbs (a.1 - a.1, a.2 - a.2) = 0 := by
  simp [cAbs]

/-- C8 (amended): when the two inputs have different lengths and the shorter is
nonempty, the comparator truncates to the shorter length, sets the warning flag
and produces a report without raising; comparing a nonempty sequence against
itself yields max, mean and RMS absolute error all exactly `0`.  (The empty
cases raise: see the counterexample.) -/
theorem c8_amended :
    (∀ ref dut : List (ℝ × ℝ), ref.length ≠ dut.length → 0 < min ref.length dut.length →
      ∃ rep, compare_results ref dut = some rep ∧ rep.warned = true ∧
        rep.n = min ref.length dut.length) ∧
    (∀ ref : List (ℝ × ℝ), 0 < ref.length →
      ∃ rep, compare_results ref ref = some rep ∧ rep.warned = false ∧
        rep.maxErr = 0 ∧ rep.meanErr = 0 ∧ rep.rmsErr = 0) := by
  constructor
  · intro ref dut hne hmin
    simp only [compare_results]
    rw [if_neg (by omega)]
    exact ⟨_, rfl, by simp [hne], rfl⟩
  · intro ref href
    simp only [compare_results]
    rw [if_neg (by omega)]
    have herrs : ∀ x ∈ List.zipWith (fun a b => cAbs (a.1 - b.1, a.2 - b.2))
        (ref.take (min ref.length ref.length)) (ref.take (min ref.length ref.length)), x = 0 := by
      intro x hx
      rw [List.zipWith_same] at hx
      obtain ⟨a, _, rfl⟩ := List.mem_map.mp hx
      exact cAbs_self_zero a
    have hsq : ∀ x ∈ (List.zipWith (fun a b => cAbs (a.1 - b.1, a.2 - b.2))
        (ref.take (min ref.length ref.length))
        (ref.take (min ref.length ref.length))).map (fun e => e ^ 2), x = 0 := by
      intro x hx
      obtain ⟨e, he, rfl⟩ := List.mem_map.mp hx
      rw [herrs e he]
      norm_num
    refine ⟨_, rfl, by simp, ?_, ?_, ?_⟩
    · exact foldl_max_zero _ herrs
    · rw [List.sum_eq_zero herrs, zero_div]
    · rw [List.sum_eq_zero hsq, zero_div, Real.sqrt_zero]

/-- C8 is false as stated: comparing the empty sequence against itself raises
(`np.max` of a zero-size array) instead of reporting errors of `0.0`, and a
length mismatch whose shorter side is empty (1 versus 0) also raises instead of
truncating quietly. -/
theorem c8_counterexample :
    compare_results ([] : List (ℝ × ℝ)) [] = none ∧
    compare_results [((0 : ℝ), (0 : ℝ))] [] = none := by
  constructor <;> simp [compare_results]

theorem c8_amended_witness :
    (∃ rep, compare_results
        [((0 : ℝ), (0 : ℝ)), (0, 0), (0, 0), (0, 0), (0, 0), (0, 0), (0, 0), (0, 0)]
        [((0 : ℝ), (0 : ℝ)), (0, 0), (0, 0), (0, 0), (0, 0), (0, 0)] = some rep ∧
      rep.warned = true ∧
      rep.n = min
        (List.length [((0 : ℝ), (0 : ℝ)), (0, 0), (0, 0), (0, 0), (0, 0), (0, 0), (0, 0), (0, 0)])
        (List.length [((0 : ℝ), (0 : ℝ)), (0, 0), (0, 0), (0, 0), (0, 0), (0, 0)])) ∧
    (∃ rep, compare_results [((1 : ℝ), (2 : ℝ))] [((1 : ℝ), (2 : ℝ))] = some rep ∧
      rep.warned = false ∧ rep.maxErr = 0 ∧ rep.meanErr = 0 ∧ rep.rmsErr = 0) :=
  ⟨c8_amended.1
      [((0 : ℝ), (0 : ℝ)), (0, 0), (0, 0), (0, 0), (0, 0), (0, 0), (0, 0), (0, 0)]
      [((0 : ℝ), (0 : ℝ)), (0, 0), (0, 0), (0, 0), (0, 0), (0, 0)] (by decide) (by decide),
   c8_amended.2 [((1 : ℝ), (2 : ℝ))] (by decide)⟩

/-! ## C2: twiddle table entries -/

theorem rRound_intCast (n : ℤ) : rRound ((n : ℝ)) = n := by
  unfold rRound
  rw [Int.fract_intCast]
  norm_num [round_intCast]

theorem abs_rRound_sub (x : ℝ) : |(rRound x : ℝ) - x| ≤ 1 / 2 := by
  unfold rRound
  split
  case isTrue h =>
    have hfract : x - (⌊x⌋ : ℝ) = 1 / 2 := h
    split
    case isTrue _ =>
      rw [abs_sub_comm, show x - ((⌊x⌋ : ℤ) : ℝ) = 1 / 2 from hfract]
      norm_num [abs_le]
    case isFalse _ =>
      have : ((⌊x⌋ + 1 : ℤ) : ℝ) - x = 1 / 2 := by
        push_cast
        have : x - (⌊x⌋ : ℝ) = 1 / 2 := hfract
        linarith
      rw [this]
      norm_num [abs_le]
  case isFalse h =>
    rw [abs_sub_comm]
    exact abs_sub_round x

theorem mag_close (c s : ℝ) (hcs : c ^ 2 + s ^ 2 = 1) (rc ri : ℤ)
    (hc : |(rc : ℝ) - c * 32768| ≤ 1 / 2) (hs : |(ri : ℝ) - s * 32768| ≤ 1 / 2) :
    |Real.sqrt (((rc : ℝ) / 32768) ^ 2 + ((ri : ℝ) / 32768) ^ 2) - 1| ≤ 1 / 32768 := by
  set x : ℝ := (rc : ℝ) / 32768 with hxdef
  set y : ℝ := (ri : ℝ) / 32768 with hydef
  have hx : |x - c| ≤ 1 / 65536 := by
    have hxc : x - c = ((rc : ℝ) - c * 32768) / 32768 := by
      rw [hxdef]
      ring
    rw [hxc, abs_div, abs_of_pos (by norm_num : (0 : ℝ) < 32768),
      div_le_iff (by norm_num : (0 : ℝ) < 32768)]
    calc |(rc : ℝ) - c * 32768| ≤ 1 / 2 := hc
    _ = 1 / 65536 * 32768 := by norm_num
  have hy : |y - s| ≤ 1 / 65536 := by
    have hyc : y - s = ((ri : ℝ) - s * 32768) / 32768 := by
      rw [hydef]
      ring
    rw [hyc, abs_div, abs_of_pos (by norm_num : (0 : ℝ) < 32768),
      div_le_iff (by norm_num : (0 : ℝ) < 32768)]
    calc |(ri : ℝ) - s * 32768| ≤ 1 / 2 := hs
    _ = 1 / 65536 * 32768 := by norm_num
  obtain ⟨hx1, hx2⟩ := abs_le.mp hx
  obtain ⟨hy1, hy2⟩ := abs_le.mp hy
  have hts : (|c| + |s|) ^ 2 ≤ 2 := by
    nlinarith [sq_abs c, sq_abs s, sq_nonneg (|c| - |s|)]
  have habs_sum : |c| + |s| ≤ 3 / 2 := by
    nlinarith [hts, sq_nonneg (|c| + |s| - 3 / 2), abs_nonneg c, abs_nonneg s]
  have hA : x ^ 2 + y ^ 2 - 1 = (x - c) ^ 2 + (y - s) ^ 2 + 2 * c * (x - c) + 2 * s * (y - s) := by
    linear_combination hcs
  have hsq_x : (x - c) ^ 2 ≤ (1 / 65536) ^ 2 := sq_le_sq' hx1 hx2
  have hsq_y : (y - s) ^ 2 ≤ (1 / 65536) ^ 2 := sq_le_sq' hy1 hy2
  have hcx_up : 2 * c * (x - c) ≤ 2 * |c| / 65536 := by
    have h1 : c * (x - c) ≤ |c| * (1 / 65536) := by
      calc c * (x - c) ≤ |c * (x - c)| := le_abs_self _
      _ = |c| * |x - c| := abs_mul c (x - c)
      _ ≤ |c| * (1 / 65536) := mul_le_mul_of_nonneg_left hx (abs_nonneg c)
    linarith
  have hcx_lo : -(2 * |c| / 65536) ≤ 2 * c * (x - c) := by
    have h1 : -(|c| * (1 / 65536)) ≤ c * (x - c) := by
      calc -(|c| * (1 / 65536)) ≤ -(|c| * |x - c|) := by
            have := mul_le_mul_of_nonneg_left hx (abs_nonneg c)
            linarith
      _ = -|c * (x - c)| := by rw [abs_mul]
      _ ≤ c * (x - c) := neg_abs_le _
    linarith
  have hsy_up : 2 * s * (y - s) ≤ 2 * |s| / 65536 := by
    have h1 : s * (y - s) ≤ |s| * (1 / 65536) := by
      calc s * (y - s) ≤ |s * (y - s)| := le_abs_self _
      _ = |s| * |y - s| := abs_mul s (y - s)
      _ ≤ |s| * (1 / 65536) := mul_le_mul_of_nonneg_left hy (abs_nonneg s)
    linarith
  have hsy_lo : -(2 * |s| / 65536) ≤ 2 * s * (y - s) := by
    have h1 : -(|s| * (1 / 65536)) ≤ s * (y - s) := by
      calc -(|s| * (1 / 65536)) ≤ -(|s| * |y - s|) := by
            have := mul_le_mul_of_nonneg_left hy (abs_nonneg s)
            linarith
      _ = -|s * (y - s)| := by rw [abs_mul]
      _ ≤ s * (y - s) := neg_abs_le _
    linarith
  have hsqnn_x : 0 ≤ (x - c) ^ 2 := sq_nonneg _
  have hsqnn_y : 0 ≤ (y - s) ^ 2 := sq_nonneg _
  have hupper : x ^ 2 + y ^ 2 ≤ (1 + 1 / 32768) ^ 2 := by
    linarith [hA, hsq_x, hsq_y, hcx_up, hsy_up, habs_sum]
  have hlower : (1 - 1 / 32768) ^ 2 ≤ x ^ 2 + y ^ 2 := by
    linarith [hA, hsqnn_x, hsqnn_y, hcx_lo, hsy_lo, habs_sum]
  have hsqrt_up : Real.sqrt (x ^ 2 + y ^ 2) ≤ 1 + 1 / 32768 := by
    rw [show (1 + 1 / 32768 : ℝ) = Real.sqrt ((1 + 1 / 32768) ^ 2) from
      (Real.sqrt_sq (by norm_num)).symm]
    exact Real.sqrt_le_sqrt hupper
  have hsqrt_lo : 1 - 1 / 32768 ≤ Real.sqrt (x ^ 2 + y ^ 2) := by
    rw [show (1 - 1 / 32768 : ℝ) = Real.sqrt ((1 - 1 / 32768) ^ 2) from
      (Real.sqrt_sq (by norm_num)).symm]
    exact Real.sqrt_le_sqrt hlower
  rw [abs_le]
  constructor <;> linarith

theorem gen_twiddles_q15_getD (N k : ℕ) (hk : k < N / 2) :
    (gen_twiddles_q15 N).getD k (0, 0) =
      (to_int16 (rRound (Real.cos (-2 * Real.pi * (k : ℝ) / (N : ℝ)) * (SCALE : ℝ))),
       to_int16 (rRound (Real.sin (-2 * Real.pi * (k : ℝ) / (N : ℝ)) * (SCALE : ℝ)))) := by
  unfold gen_twiddles_q15
  rw [List.getD_eq_getElem?_getD, List.getElem?_map, List.getElem?_range hk]
  rfl

theorem gen_twiddles_entry0 (N : ℕ) (hN : 1 ≤ N / 2) :
    (gen_twiddles_q15 N).getD 0 (0, 0) = (-32768, 0) := by
  rw [gen_twiddles_q15_getD N 0 hN]
  have hang : (-2 * Real.pi * ((0 : ℕ) : ℝ) / (N : ℝ)) = 0 := by
    push_cast
    ring
  rw [hang, Real.cos_zero, Real.sin_zero, one_mul, zero_mul]
  have h1 : rRound ((SCALE : ℝ)) = 32768 := by
    rw [show ((SCALE : ℤ) : ℝ) = ((32768 : ℤ) : ℝ) by norm_num [SCALE]]
    exact rRound_intCast 32768
  have h2 : rRound (0 : ℝ) = 0 := by
    rw [show (0 : ℝ) = ((0 : ℤ) : ℝ) by norm_num]
    exact rRound_intCast 0
  rw [h1, h2]
  decide

theorem rRound_scaled_bounds {c : ℝ} (hc : |c| ≤ 1) :
    -32768 ≤ rRound (c * (SCALE : ℝ)) ∧ rRound (c * (SCALE : ℝ)) ≤ 32768 := by
  have hS : ((SCALE : ℤ) : ℝ) = 32768 := by norm_num [SCALE]
  rw [hS]
  have habs := abs_rRound_sub (c * 32768)
  rw [abs_le] at habs hc
  obtain ⟨h1, h2⟩ := habs
  obtain ⟨hc1, hc2⟩ := hc
  have hcs1 : -32768 ≤ c * 32768 := by nlinarith
  have hcs2 : c * 32768 ≤ 32768 := by nlinarith
  constructor
  · by_contra hcon
    push_neg at hcon
    have : (rRound (c * 32768) : ℝ) ≤ -32769 := by
      have : rRound (c * 32768) ≤ -32769 := by omega
      exact_mod_cast this
    linarith
  · by_contra hcon
    push_neg at hcon
    have : (32769 : ℝ) ≤ (rRound (c * 32768) : ℝ) := by
      have : 32769 ≤ rRound (c * 32768) := by omega
      exact_mod_cast this
    linarith

theorem to_int16_sq {v : ℤ} (h1 : -32768 ≤ v) (h2 : v ≤ 32768) :
    (to_int16 v) ^ 2 = v ^ 2 := by
  rcases Int.lt_or_le v 32768 with h | h
  · rw [to_int16_of_range h1 (by omega)]
  · have hv : v = 32768 := by omega
    subst hv
    norm_num [to_int16_wrap_top]

/-- C2 (amended): for every power-of-two `N = 2 ^ m ≥ 2`, the twiddle table has
`N / 2` entries; entry 0 is `(-32768, 0)` — the wrap of `round(cos 0 · 2^15) =
2^15` to signed 16 bits, i.e. the two's-complement bit pattern `0x8000 = 2^15`
— and the magnitude of every dequantized entry is within one quantization step
`2 ^ (-15)` of `1`. -/
theorem c2_amended (m : ℕ) (hm : 1 ≤ m) :
    (gen_twiddles_q15 (2 ^ m)).length = 2 ^ m / 2 ∧
    (gen_twiddles_q15 (2 ^ m)).getD 0 (0, 0) = (-32768, 0) ∧
    ∀ k, k < 2 ^ m / 2 →
      |Real.sqrt (((((gen_twiddles_q15 (2 ^ m)).getD k (0, 0)).1 : ℝ) / 32768) ^ 2 +
          ((((gen_twiddles_q15 (2 ^ m)).getD k (0, 0)).2 : ℝ) / 32768) ^ 2) - 1| ≤
        1 / 32768 := by
  have hhalf : 1 ≤ 2 ^ m / 2 := by
    have : (2 : ℕ) ^ 1 ≤ 2 ^ m := Nat.pow_le_pow_right (by norm_num) hm
    omega
  refine ⟨gen_twiddles_q15_length _, gen_twiddles_entry0 _ hhalf, ?_⟩
  intro k hk
  rw [gen_twiddles_q15_getD _ k hk]
  dsimp only
  set θ : ℝ := -2 * Real.pi * (k : ℝ) / ((2 ^ m : ℕ) : ℝ) with hθ
  have hpyth : Real.cos θ ^ 2 + Real.sin θ ^ 2 = 1 := Real.cos_sq_add_sin_sq θ
  have hS : ((SCALE : ℤ) : ℝ) = 32768 := by norm_num [SCALE]
  have hcosb := rRound_scaled_bounds (Real.abs_cos_le_one θ)
  have hsinb := rRound_scaled_bounds (Real.abs_sin_le_one θ)
  have hcdiff : |((rRound (Real.cos θ * (SCALE : ℝ))) : ℝ) - Real.cos θ * 32768| ≤ 1 / 2 := by
    have := abs_rRound_sub (Real.cos θ * (SCALE : ℝ))
    rw [hS] at this
    exact this
  have hsdiff : |((rRound (Real.sin θ * (SCALE : ℝ))) : ℝ) - Real.sin θ * 32768| ≤ 1 / 2 := by
    have := abs_rRound_sub (Real.sin θ * (SCALE : ℝ))
    rw [hS] at this
    exact this
  have hsqc : ((to_int16 (rRound (Real.cos θ * (SCALE : ℝ))) : ℝ) / 32768) ^ 2 =
      (((rRound (Real.cos θ * (SCALE : ℝ))) : ℝ) / 32768) ^ 2 := by
    rw [div_pow, div_pow]
    have := to_int16_sq hcosb.1 hcosb.2
    have hcast : ((to_int16 (rRound (Real.cos θ * (SCALE : ℝ)))) : ℝ) ^ 2 =
        (((rRound (Real.cos θ * (SCALE : ℝ))) : ℝ)) ^ 2 := by exact_mod_cast this
    rw [hcast]
  have hsqs : ((to_int16 (rRound (Real.sin θ * (SCALE : ℝ))) : ℝ) / 32768) ^ 2 =
      (((rRound (Real.sin θ * (SCALE : ℝ))) : ℝ) / 32768) ^ 2 := by
    rw [div_pow, div_pow]
    have := to_int16_sq hsinb.1 hsinb.2
    have hcast : ((to_int16 (rRound (Real.sin θ * (SCALE : ℝ)))) : ℝ) ^ 2 =
        (((rRound (Real.sin θ * (SCALE : ℝ))) : ℝ)) ^ 2 := by exact_mod_cast this
    rw [hcast]
  rw [hsqc, hsqs]
  exact mag_close (Real.cos θ) (Real.sin θ) hpyth _ _ hcdiff hsdiff

/-- C2 is false as stated: at `N = 4` the signed Q1.15 value of twiddle entry 0
is `(-32768, 0)`, which is neither `(2 ^ 15 - 1, 0)` nor `(2 ^ 15, 0)`. -/
theorem c2_counterexample :
    (gen_twiddles_q15 4).getD 0 (0, 0) ≠ (32767, 0) ∧
    (gen_twiddles_q15 4).getD 0 (0, 0) ≠ (32768, 0) := by
  rw [gen_twiddles_entry0 4 (by norm_num)]
  exact ⟨by decide, by decide⟩

theorem c2_amended_witness :
    (gen_twiddles_q15 (2 ^ 2)).length = 2 ^ 2 / 2 ∧
    (gen_twiddles_q15 (2 ^ 2)).getD 0 (0, 0) = (-32768, 0) :=
  ⟨(c2_amended 2 (by decide)).1, (c2_amended 2 (by decide)).2.1⟩

/-! ## C1: the spec's end-to-end example -/

theorem gen_twiddles_four : gen_twiddles_q15 4 = [(-32768, 0), (0, -32768)] := by
  unfold gen_twiddles_q15
  rw [show List.range (4 / 2) = [0, 1] from rfl]
  simp only [List.map_cons, List.map_nil]
  have hS1 : rRound ((SCALE : ℝ)) = 32768 := by
    rw [show ((SCALE : ℤ) : ℝ) = ((32768 : ℤ) : ℝ) by norm_num [SCALE]]
    exact rRound_intCast 32768
  have hS0 : rRound (0 : ℝ) = 0 := by
    rw [show (0 : ℝ) = ((0 : ℤ) : ℝ) by norm_num]
    exact rRound_intCast 0
  have hSneg : rRound (-1 * (SCALE : ℝ)) = -32768 := by
    rw [show (-1 * ((SCALE : ℤ) : ℝ)) = ((-32768 : ℤ) : ℝ) by norm_num [SCALE]]
    exact rRound_intCast (-32768)
  have hang0 : (-2 * Real.pi * ((0 : ℕ) : ℝ) / ((4 : ℕ) : ℝ)) = 0 := by
    push_cast
    ring
  have hang1 : (-2 * Real.pi * ((1 : ℕ) : ℝ) / ((4 : ℕ) : ℝ)) = -(Real.pi / 2) := by
    push_cast
    ring
  congr 1
  · rw [hang0, Real.cos_zero, Real.sin_zero, one_mul, zero_mul, hS1, hS0]
    decide
  · congr 1
    rw [hang1, Real.cos_neg, Real.sin_neg, Real.cos_pi_div_two, Real.sin_pi_div_two, zero_mul,
      hS0, neg_one_mul]
    rw [show (-((SCALE : ℤ) : ℝ)) = ((-32768 : ℤ) : ℝ) by norm_num [SCALE]]
    rw [rRound_intCast]
    decide

theorem inputWords_decode :
    inputWords.map q15_from_word32 = [((0 : ℚ), 0), (0, -1), (0, 0), (0, 0)] := by
  simp only [inputWords, q15_from_word32, List.map_cons, List.map_nil]
  simp
  rw [show (32768 &&& 65535 : ℕ) = 32768 by decide]
  norm_num [SCALE]

theorem quantized_input :
    [((0 : ℚ), 0), (0, -1), (0, 0), (0, 0)].map quantizeSample =
      [((0 : ℤ), 0), (0, -32768), (0, 0), (0, 0)] := by
  norm_num [quantizeSample, qRound, SCALE, MIN_Q15, MAX_Q15, to_int16, Int.fract, round_eq]

theorem log2_four : Nat.log2 4 = 2 := by
  rw [show (4 : ℕ) = 2 ^ 2 from rfl, log2_two_pow]

theorem c1_eval :
    compute_fft_dit (inputWords.map q15_from_word32) =
      some [((0 : ℚ), -1), (0, -1), (0, -1), (0, -1)] := by
  have hfold : (List.range (Nat.log2 4)).foldl
      (fun b stage => runStage 4 stage (gen_twiddles_q15 4) b)
      ([((0 : ℚ), 0), (0, -1), (0, 0), (0, 0)].map quantizeSample) =
      [((0 : ℤ), -32768), (0, -32768), (0, -32768), (0, -32768)] := by
    rw [quantized_input, gen_twiddles_four, log2_four]
    decide
  have hdeq : [((0 : ℤ), -32768), (0, -32768), (0, -32768), (0, -32768)].map dequantizeSample =
      [((0 : ℚ), -1), (0, -1), (0, -1), (0, -1)] := by
    norm_num [dequantizeSample, SCALE]
  rw [inputWords_decode]
  show (if (4 &&& (4 - 1) ≠ 0) then none
    else if (4 = 0) then none
    else some (fftBody [((0 : ℚ), 0), (0, -1), (0, 0), (0, 0)])) =
      some [((0 : ℚ), -1), (0, -1), (0, -1), (0, -1)]
  rw [if_neg (by decide), if_neg (by decide)]
  congr 1
  show bit_reverse_array (0, 0)
      (((List.range (Nat.log2 4)).foldl
        (fun b stage => runStage 4 stage (gen_twiddles_q15 4) b)
        ([((0 : ℚ), 0), (0, -1), (0, 0), (0, 0)].map quantizeSample)).map dequantizeSample) =
    [((0 : ℚ), -1), (0, -1), (0, -1), (0, -1)]
  rw [hfold, hdeq]
  show ((List.range 4).map (bitRev (Nat.log2 4))).map
      (fun j => [((0 : ℚ), -1), (0, -1), (0, -1), (0, -1)].getD j ((0 : ℚ), (0 : ℚ))) =
    [((0 : ℚ), -1), (0, -1), (0, -1), (0, -1)]
  rw [log2_four]
  rfl

/-- C1 (amended): decoding the four input words yields the samples
`[0, -j, 0, 0]` (word `00008000` carries `-1` in the imaginary field, not the
real one), and `compute_fft_dit` returns the frequency buffer
`[-j, -j, -j, -j]`; only its length matches the spec's expectation — the buffer
differs from the 4-point DFT `[-1, j, 1, -j]` by far more than one quantization
step (internal Q1.15 wraparound and the output-side-only bit reversal make the
spec's expected output unattainable). -/
theorem c1_amended :
    inputWords.map q15_from_word32 = [((0 : ℚ), 0), (0, -1), (0, 0), (0, 0)] ∧
    compute_fft_dit (inputWords.map q15_from_word32) =
      some [((0 : ℚ), -1), (0, -1), (0, -1), (0, -1)] :=
  ⟨inputWords_decode, c1_eval⟩

/-- C1 is false on the code: the transform of the spec's example words does not
match the DFT `[-1, j, 1, -j]` within `2 ^ (-15)` per component (bin 0 decodes
to `-j`, so its real part differs from `-1` by a full `1`). -/
theorem c1_counterexample :
    ¬ ∃ out, compute_fft_dit (inputWords.map q15_from_word32) = some out ∧
      out.length = 4 ∧
      ∀ p ∈ out.zip dft4, |p.1.1 - p.2.1| ≤ 1 / 32768 ∧ |p.1.2 - p.2.2| ≤ 1 / 32768 := by
  rintro ⟨out, hout, hlen, hclose⟩
  rw [c1_eval] at hout
  have hout' : out = [((0 : ℚ), -1), (0, -1), (0, -1), (0, -1)] :=
    (Option.some_inj.mp hout).symm
  subst hout'
  have hmem : ((((0 : ℚ), (-1 : ℚ)), ((-1 : ℚ), (0 : ℚ))) :
      (ℚ × ℚ) × (ℚ × ℚ)) ∈
      ([((0 : ℚ), -1), (0, -1), (0, -1), (0, -1)].zip dft4) := by
    simp [dft4]
  have h0 := (hclose _ hmem).1
  norm_num at h0
